import Mathlib

/-!
Verification of the YES ("Your Extensible Script") parser, a Rust crate.

Shallow embedding conventions:
* Rust `String`/`&str`/byte-slice data is modelled as `List Char`.  The
  grammar is byte-oriented and every byte the lexer treats specially is
  ASCII, so byte indices and character indices coincide on the inputs the
  code distinguishes; one `Char` stands for one byte.
* `usize` arithmetic is modelled by `Nat`.  Where the source can underflow
  a `usize` subtraction, the model follows the release-profile wrap-around
  semantics extensionally and the spot is called out in a comment.
* Fallible or diverging code paths return `Option`; `none` models a Rust
  panic or an infinite loop.
* Loops are modelled as fuel-indexed recursive functions (one fuel tick per
  source-loop iteration or jump); the public entry points supply fuel that
  provably exceeds the loop's iteration count, so running out of fuel is
  unreachable from the entry points.

Source files embedded: `src/enums.rs`, `src/utils/mod.rs`, `src/literal.rs`,
`src/keyval.rs`, `src/element.rs`, `src/element_parser.rs`, `src/lib.rs`.
-/

namespace Yes

/-! ## Glyphs (src/enums.rs) -/

/-- The `Glyphs` enum of `src/enums.rs`.  Constructor names are adjusted
where the Rust name is a Lean keyword (`None` is `noneG`, `At` is `atSign`). -/
inductive Glyphs
  | noneG
  | equal
  | atSign
  | bang
  | hash
  | space
  | comma
  | quote
  | backslash
deriving DecidableEq, Repr

/-- `Glyphs::value` of `src/enums.rs` (bytes modelled as `Char`).
`Glyphs::None` is byte 0. -/
def Glyphs.value : Glyphs → Char
  | .atSign => '@'
  | .bang => '!'
  | .comma => ','
  | .equal => '='
  | .hash => '#'
  | .noneG => Char.ofNat 0
  | .quote => '"'
  | .space => ' '
  | .backslash => '\\'

/-- `Glyphs::from` of `src/enums.rs`: classify one byte, defaulting to
`Glyphs::None`. -/
def Glyphs.fromChar (c : Char) : Glyphs :=
  if c = '@' then .atSign
  else if c = '!' then .bang
  else if c = ',' then .comma
  else if c = '=' then .equal
  else if c = '#' then .hash
  else if c = '"' then .quote
  else if c = ' ' then .space
  else if c = '\\' then .backslash
  else .noneG

/-- `Glyphs::is_reserved` of `src/enums.rs`.  Note the source returns `true`
for exactly six glyphs: `At`, `Bang`, `Comma`, `Equal`, `Hash`, `Quote`;
`Space` and `Backslash` fall into the `_ => false` arm. -/
def Glyphs.is_reserved (c : Char) : Bool :=
  match Glyphs.fromChar c with
  | .atSign => true
  | .bang => true
  | .comma => true
  | .equal => true
  | .hash => true
  | .quote => true
  | _ => false

/-! ## Error codes and delimiters (src/enums.rs) -/

inductive ErrorCodes
  | BadTokenPosAttribute
  | BadTokenPosBang
  | EolNoData
  | EolMissingElement
  | EolMissingAttribute
  | EolMissingGlobal
  | UnterminatedQuote
  | Runtime
deriving DecidableEq, Repr

/-- `ErrorCodes::values` of `src/enums.rs`: the message attached to a code. -/
def ErrorCodes.values : ErrorCodes → String
  | .BadTokenPosAttribute => "Element using attribute prefix out-of-place."
  | .BadTokenPosBang => "Element using global prefix out-of-place."
  | .EolNoData => "Nothing to parse (EOL)."
  | .EolMissingElement => "Missing element name (EOL)."
  | .EolMissingAttribute => "Missing attribute name (EOL)."
  | .EolMissingGlobal => "Missing global identifier (EOL)."
  | .UnterminatedQuote => "Missing end quote in expression."
  | .Runtime => "Unexpected runtime error."

inductive Delimiters
  | Unset
  | Comma
  | Space
deriving DecidableEq, Repr

/-- `Delimiters::value` of `src/enums.rs`; `Unset` maps to byte 0. -/
def Delimiters.value : Delimiters → Char
  | .Unset => Char.ofNat 0
  | .Comma => ','
  | .Space => ' '

/-! ## String utilities (src/utils/mod.rs)

The trait `StringUtils` is implemented for `String`; here the functions act
on `List Char`. -/

/-- `StringUtils::substring`: `self.chars().skip(start).take(len)`. -/
def substring (s : List Char) (start len : Nat) : List Char :=
  (s.drop start).take len

/-- `StringUtils::is_quoted` of `src/utils/mod.rs`.  The source reads
`b.len() > 0 && b.nth(0) == c && b.nth(b.len() - 1) == c` over a consuming
byte iterator: `nth(0)` consumes the first byte, after which `b.len()` is
`len - 1`, so the second probe is at index `(len - 1) - 1` of the remaining
iterator.  For a one-byte string the inner `b.len() - 1` is `0 - 1`, which
wraps in a release build and makes `nth` return `None`; truncated `Nat`
subtraction gives index 0 of the empty remainder, which is also `none`, so
the model agrees extensionally with the release behaviour. -/
def is_quoted (s : List Char) : Bool :=
  decide (0 < s.length) && (s[0]? == some '"')
    && ((s.drop 1)[s.length - 1 - 1]? == some '"')

/-- `StringUtils::quote` of `src/utils/mod.rs`: wrap in quotes unless
`is_quoted` already holds. -/
def quote (s : List Char) : List Char :=
  if is_quoted s then s else '"' :: (s ++ ['"'])

/-- `StringUtils::unquote` of `src/utils/mod.rs`: if quoted, keep
`substring(1, len - 2)`. -/
def unquote (s : List Char) : List Char :=
  if is_quoted s then substring s 1 (s.length - 2) else s

/-- `StringUtils::ltrim` of `src/utils/mod.rs`: the loop finds the first
non-space character `i` and keeps `substring(i, len - i)`; if every
character is a space the buffer is left unchanged. -/
def ltrim (s : List Char) : List Char :=
  if s.all (fun c => c == ' ') then s else s.dropWhile (fun c => c == ' ')

/-- `StringUtils::rtrim` of `src/utils/mod.rs`: the reversed scan finds the
last non-space character `i` and keeps `substring(0, i + 1)`; an all-space
buffer is left unchanged. -/
def rtrim (s : List Char) : List Char :=
  if s.all (fun c => c == ' ') then s
  else (s.reverse.dropWhile (fun c => c == ' ')).reverse

/-- `StringUtils::trim` of `src/utils/mod.rs`: `ltrim` then `rtrim`. -/
def su_trim (s : List Char) : List Char :=
  rtrim (ltrim s)

/-- Rust `str::trim` (used on the raw input line in `ElementParser::read`,
where the receiver is a `&str` so the standard-library trim applies): strip
leading and trailing whitespace. -/
def std_trim (s : List Char) : List Char :=
  ((s.dropWhile Char.isWhitespace).reverse.dropWhile Char.isWhitespace).reverse

/-! ## Literal (src/literal.rs) -/

/-- `Literal` of `src/literal.rs`: a pair of begin/end bytes.  The field
`end` is a Lean keyword and is rendered `end_`. -/
structure Literal where
  begin : Char
  end_ : Char
deriving DecidableEq, Repr

/-- `Literal::new` of `src/literal.rs`: reject reserved begin/end bytes. -/
def Literal.new (b e : Char) : Except String Literal :=
  if Glyphs.is_reserved b then
    .error "Literal::begin cannot contain a reserved character."
  else if Glyphs.is_reserved e then
    .error "Literal::end cannot contain a reserved character."
  else .ok { begin := b, end_ := e }

/-- `Literal::build_quotes` of `src/literal.rs`. -/
def Literal.build_quotes : Literal :=
  { begin := '"', end_ := '"' }

/-! ## KeyVal (src/keyval.rs) -/

structure KeyVal where
  key : Option (List Char)
  val : List Char
  key_contains_space : Bool
  value_contains_space : Bool
deriving DecidableEq, Repr

/-- `KeyVal::new` of `src/keyval.rs`: the whitespace flags are computed from
the key/value at construction time. -/
def KeyVal.new (key : Option (List Char)) (val : List Char) : KeyVal :=
  { key := key
    val := val
    key_contains_space :=
      match key with
      | none => false
      | some k => k.any (fun c => c == ' ')
    value_contains_space := val.any (fun c => c == ' ') }

/-- `KeyVal::copy` of `src/keyval.rs`: rebuild through `KeyVal::new`. -/
def KeyVal.copy (other : KeyVal) : KeyVal :=
  KeyVal.new other.key other.val

/-- `KeyVal::is_nameless` of `src/keyval.rs`. -/
def KeyVal.is_nameless (kv : KeyVal) : Bool :=
  kv.key == none

/-! ## Element (src/element.rs) -/

structure Element where
  text : List Char
  args : List KeyVal
deriving DecidableEq, Repr

/-- `Element::new` of `src/element.rs`. -/
def Element.new (text : List Char) : Element :=
  { text := text, args := [] }

/-- One step of `Element::upsert`'s scan: replace the value of the first
argument whose key matches, else append. -/
def upsert_args (args : List KeyVal) (kv : KeyVal) : List KeyVal :=
  match args with
  | [] => [kv]
  | a :: rest =>
    match a.key, kv.key with
    | some k, some k2 =>
      if k = k2 then { a with val := kv.val } :: rest
      else a :: upsert_args rest kv
    | _, _ => a :: upsert_args rest kv

/-- `Element::upsert` of `src/element.rs`: nameless KeyVals always append;
named ones overwrite the value of the first argument with the same key in
place, else append. -/
def Element.upsert (el : Element) (kv : KeyVal) : Element :=
  if kv.is_nameless then { el with args := el.args ++ [kv] }
  else { el with args := upsert_args el.args kv }

/-! ## Elements (src/enums.rs) -/

/-- The `Elements` enum of `src/enums.rs`. -/
inductive Elements
  | Standard (attrs : List Element) (element : Element)
  | Attribute (element : Element)
  | Global (element : Element)
  | Comment (element : Element)
deriving DecidableEq, Repr

/-- `Elements::new_standard` of `src/enums.rs`. -/
def Elements.new_standard (label : List Char) : Elements :=
  .Standard [] (Element.new label)

/-- `Elements::new_attribute` of `src/enums.rs`. -/
def Elements.new_attribute (label : List Char) : Elements :=
  .Attribute (Element.new label)

/-- `Elements::new_global` of `src/enums.rs`. -/
def Elements.new_global (label : List Char) : Elements :=
  .Global (Element.new label)

/-- `Elements::new_comment` of `src/enums.rs`. -/
def Elements.new_comment (message : List Char) : Elements :=
  .Comment (Element.new message)

/-- `Elements::copy` of `src/enums.rs`: clone the text and rebuild every
argument through `KeyVal::copy`. -/
def Elements.copy (other : Element) : Element :=
  { text := other.text, args := other.args.map KeyVal.copy }

/-- `Elements::upsert_keyval` of `src/enums.rs`: forward to the inner
`Element` (a `Standard` forwards to its own element, not its attrs). -/
def Elements.upsert_keyval (e : Elements) (kv : KeyVal) : Elements :=
  match e with
  | .Standard attrs data => .Standard attrs (data.upsert kv)
  | .Attribute data => .Attribute (data.upsert kv)
  | .Global data => .Global (data.upsert kv)
  | .Comment data => .Comment (data.upsert kv)

/-! ## Element parser (src/element_parser.rs) -/

/-- `TokenWalkInfo` of `src/element_parser.rs`. -/
structure TokenWalkInfo where
  data : List Char
  pivot : Option Nat
deriving DecidableEq, Repr

/-- `TokenWalkInfo::calc_pivot` of `src/element_parser.rs`. -/
def TokenWalkInfo.calc_pivot (a : Option Nat) (b : Nat) : Option Nat :=
  match a with
  | some x => if x < b then none else some (x - b)
  | none => none

/-- `ElementTypes` of `src/element_parser.rs`. -/
inductive ElementTypes
  | Standard
  | Attribute
  | Global
deriving DecidableEq, Repr

/-- `ElementParser` of `src/element_parser.rs` (result fields only; the
methods become functions below). -/
structure ElementParser where
  delimiter : Delimiters
  element : Option Elements
  error : Option ErrorCodes
  line_number : Nat
deriving DecidableEq, Repr

/-- `ElementParser::is_ok` of `src/element_parser.rs`. -/
def ElementParser.is_ok (p : ElementParser) : Bool :=
  p.error == none

/-- `Iterator::position` over a character list (models
`slice.iter().skip(i).position(|&b| b == t)` with the list pre-dropped). -/
def position (l : List Char) (t : Char) : Option Nat :=
  match l with
  | [] => none
  | c :: rest => if c == t then some 0 else (position rest t).map (· + 1)

/-- The `ud_literals` hash map of `ElementParser::collect_tokens`, modelled
as an association list.  `HashMap` key iteration order is not specified in
Rust; the model iterates in insertion order, which coincides with the real
behaviour whenever no two registered literals share a `begin` byte. -/
abbrev LitMap := List (Literal × Option Nat)

/-- `HashMap::insert`: update the value of an existing key in place, else
append the pair. -/
def hm_insert (m : LitMap) (k : Literal) (v : Option Nat) : LitMap :=
  match m with
  | [] => [(k, v)]
  | (l, w) :: rest => if l = k then (k, v) :: rest else (l, w) :: hm_insert rest k v

/-- `HashMap::get`. -/
def hm_get (m : LitMap) (k : Literal) : Option (Option Nat) :=
  match m with
  | [] => none
  | (l, w) :: rest => if l = k then some w else hm_get rest k

/-- Populating `ud_literals` from the literal list (`collect_tokens`,
step 0): every provided literal is inserted with value `None`. -/
def build_map (lits : List Literal) : LitMap :=
  lits.foldl (fun m l => hm_insert m l none) []

/-- The begin-byte scan `for literal in ud_literals.keys() { if literal.begin
== c ... }`: first registered literal whose `begin` is `c`. -/
def lit_lookup (m : LitMap) (c : Char) : Option Literal :=
  match m with
  | [] => none
  | (l, _) :: rest => if l.begin == c then some l else lit_lookup rest c

/-- The pass-1 counters of `ElementParser::collect_tokens` (step 1). -/
structure Pass1Acc where
  space : Option Nat
  equal : Option Nat
  equal_count : Nat
  spaces_bf_eq : Nat
  spaces_af_eq : Nat
  tokens_bf_eq : Nat
  tokens_af_eq : Nat
  token_walking : Bool
deriving DecidableEq, Repr

def Pass1Acc.init : Pass1Acc :=
  ⟨none, none, 0, 0, 0, 0, 0, false⟩

/-- One pass-1 counter update for a byte `c` at index `curr` processed
outside any literal span (the body of the `else` branch of
`collect_tokens`'s first loop, before the begin-byte scan).  A comma takes
the first branch because it is neither a space nor an equal sign. -/
def pass1_upd (a : Pass1Acc) (c : Char) (curr : Nat) : Pass1Acc :=
  let is_space := c == ' '
  let is_equal := c == '='
  if !is_space && !is_equal then
    let a1 :=
      if !a.token_walking then
        (if a.equal == none then { a with tokens_bf_eq := a.tokens_bf_eq + 1 }
         else { a with tokens_af_eq := a.tokens_af_eq + 1 })
      else a
    let a2 := { a1 with token_walking := true }
    if a2.equal == none then { a2 with spaces_bf_eq := 0 }
    else { a2 with spaces_af_eq := 0 }
  else if is_space then
    let a1 :=
      if a.token_walking then
        (if a.equal == none then { a with spaces_bf_eq := a.spaces_bf_eq + 1 }
         else { a with spaces_af_eq := a.spaces_af_eq + 1 })
      else a
    let a2 := { a1 with token_walking := false }
    if a2.space == none then { a2 with space := some curr } else a2
  else
    let a1 := { a with token_walking := false }
    let a2 := if a1.equal == none then { a1 with equal := some curr } else a1
    { a2 with equal_count := a2.equal_count + 1 }

/-- The state left behind by pass 1 of `collect_tokens`: the counters, the
literal table (reused by pass 2), the still-active literal if the line ended
inside a span, and whether the loop broke on a comma (the only place pass 1
calls `set_delimiter(Comma)` inside the loop). -/
structure Pass1Out where
  acc : Pass1Acc
  map : LitMap
  active : Option Literal
  comma : Bool
deriving DecidableEq, Repr

/-- Pass 1 of `ElementParser::collect_tokens` (the first `while curr < len`
loop).  One fuel tick per loop iteration; every iteration advances `curr`
by at least one, so fuel `slice.length + 1` never runs out from the entry
point. -/
def pass1_loop (slice : List Char) : Nat → LitMap → Option Literal → Pass1Acc → Nat → Pass1Out
  | 0, m, active, acc, _ => ⟨acc, m, active, false⟩
  | fuel + 1, m, active, acc, curr =>
    match slice[curr]? with
    | none => ⟨acc, m, active, false⟩
    | some c =>
      match active with
      | some lit =>
        if lit.end_ == c then
          -- the toggle block: `if *value == None { replace(curr) } else { take }`
          match hm_get m lit with
          | some (some _) => pass1_loop slice fuel (hm_insert m lit none) none acc (curr + 1)
          | _ => pass1_loop slice fuel (hm_insert m lit (some curr)) active acc (curr + 1)
        else
          -- look ahead for the terminating literal
          match position (slice.drop curr) lit.end_ with
          | some p => pass1_loop slice fuel m active acc (curr + p)
          | none => ⟨acc, m, active, false⟩
      | none =>
        let acc2 := pass1_upd acc c curr
        match lit_lookup m c with
        | some l => pass1_loop slice fuel (hm_insert m l (some curr)) (some l) acc2 (curr + 1)
        | none =>
          if c == ',' then ⟨acc2, m, none, true⟩
          else pass1_loop slice fuel m none acc2 (curr + 1)

/-- The `one_token_exists` edge-case shape computed after pass 1's loop in
`collect_tokens` (`spaces.abs_diff` is `Nat.dist`). -/
def one_token_exists (a : Pass1Acc) : Bool :=
  a.equal_count == 1 && a.tokens_bf_eq == 1 && decide (a.tokens_af_eq ≤ 1)
    && decide (Nat.dist a.spaces_bf_eq a.spaces_af_eq ≤ 1) && a.space != none

/-- The state of pass 2 of `collect_tokens` when its loop exits. -/
structure Pass2Out where
  tokens : List TokenWalkInfo
  last_token_idx : Nat
  equal : Option Nat
deriving DecidableEq, Repr

/-- Pass 2 of `ElementParser::collect_tokens` (the second `while curr < len`
loop), reusing the literal table left by pass 1.  In this pass the begin
scan does not jump past the byte; it marks the literal active and falls
through to the toggle block, so a table value left over from pass 1
immediately toggles the span off again. -/
def pass2_loop (slice : List Char) (delim : Char) :
    Nat → LitMap → Option Literal → Option Nat → Nat → List TokenWalkInfo → Nat → Pass2Out
  | 0, _, _, equal, last, tokens, _ => ⟨tokens, last, equal⟩
  | fuel + 1, m, active, equal, last, tokens, curr =>
    match slice[curr]? with
    | none => ⟨tokens, last, equal⟩
    | some c =>
      match active with
      | some lit =>
        if lit.end_ == c then
          match hm_get m lit with
          | some (some _) =>
            pass2_loop slice delim fuel (hm_insert m lit none) none equal last tokens (curr + 1)
          | _ =>
            pass2_loop slice delim fuel (hm_insert m lit (some curr)) active equal last tokens
              (curr + 1)
        else
          match position (slice.drop curr) lit.end_ with
          | some p => pass2_loop slice delim fuel m active equal last tokens (curr + p)
          | none => ⟨tokens, last, equal⟩
      | none =>
        if c == '=' then
          pass2_loop slice delim fuel m none (some curr) last tokens (curr + 1)
        else if c == delim then
          let t : TokenWalkInfo :=
            ⟨substring slice last (curr - last), TokenWalkInfo.calc_pivot equal last⟩
          pass2_loop slice delim fuel m none equal (curr + 1) (tokens ++ [t]) (curr + 1)
        else
          match lit_lookup m c with
          | some l =>
            match hm_get m l with
            | some (some _) =>
              pass2_loop slice delim fuel (hm_insert m l none) none equal last tokens (curr + 1)
            | _ =>
              pass2_loop slice delim fuel (hm_insert m l (some curr)) (some l) equal last tokens
                (curr + 1)
          | none => pass2_loop slice delim fuel m none equal last tokens (curr + 1)

/-- Result of `ElementParser::collect_tokens` together with the delimiter it
resolved (`set_delimiter` is only ever called with the parser's delimiter
still `Unset`, so the resolved value is the final one). -/
structure CollectOut where
  delimiter : Delimiters
  tokens : List TokenWalkInfo
deriving DecidableEq, Repr

/-- `ElementParser::collect_tokens` of `src/element_parser.rs`: pass 1
resolves the delimiter (comma on an in-loop comma break, else comma exactly
when `one_token_exists`, else space), pass 2 splits the tokens, and a
pending token reaching end-of-line is flushed. -/
def collect_tokens (slice : List Char) (start : Nat) (lits : List Literal) : CollectOut :=
  let out := pass1_loop slice (slice.length + 1) (build_map lits) none Pass1Acc.init start
  let delim : Delimiters :=
    if out.comma then .Comma
    else if one_token_exists out.acc then .Comma
    else .Space
  let p2 := pass2_loop slice delim.value (slice.length + 1) out.map none none start [] start
  let tokens :=
    if p2.last_token_idx < slice.length then
      p2.tokens ++ [⟨substring slice p2.last_token_idx (slice.length - p2.last_token_idx),
                     TokenWalkInfo.calc_pivot p2.equal p2.last_token_idx⟩]
    else p2.tokens
  ⟨delim, tokens⟩

/-- The per-token body of `ElementParser::evaluate_keyvals` (after the
leading-equal skip): split at the pivot if present, trim and unquote each
side, and upsert. -/
def eval_token_core (el : Elements) (token : TokenWalkInfo) : Elements :=
  let len := token.data.length
  match token.pivot with
  | some piv =>
    el.upsert_keyval (KeyVal.new
      (some (unquote (su_trim (substring token.data 0 piv))))
      (unquote (su_trim (substring token.data (piv + 1) (len - piv)))))
  | none => el.upsert_keyval (KeyVal.new none (unquote (su_trim token.data)))

/-- `ElementParser::evaluate_keyvals` of `src/element_parser.rs`: a token
whose first byte is `=` is skipped; an empty token is not skipped. -/
def evaluate_keyvals (el : Elements) (tokens : List TokenWalkInfo) : Elements :=
  tokens.foldl
    (fun e t =>
      match t.data.head? with
      | some c => if c == '=' then e else eval_token_core e t
      | none => eval_token_core e t)
    el

/-- Exit of the prefix-classification loop of `ElementParser::read`
(steps 1-2). -/
inductive ReadMarks
  | err (e : ErrorCodes)
  | comment (text : List Char)
  | proceed (ty : ElementTypes) (pos : Nat)
  | hang
deriving DecidableEq, Repr

/-- The `while pos < len` classification loop of `ElementParser::read`.  A
`#` reached with a non-Standard tag falls through its `match` arm without
advancing `pos`, so the source loops forever; that state is modelled as
`.hang`.  One fuel tick per iteration. -/
def read_loop (slice : List Char) : Nat → ElementTypes → Nat → ReadMarks
  | 0, _, _ => .hang
  | fuel + 1, ty, pos =>
    match slice[pos]? with
    | none => .proceed ty pos
    | some c =>
      if c == ' ' then read_loop slice fuel ty (pos + 1)
      else if !Glyphs.is_reserved c then .proceed ty pos
      else
        match Glyphs.fromChar c with
        | .atSign =>
          if ty ≠ ElementTypes.Standard then .err .BadTokenPosAttribute
          else read_loop slice fuel .Attribute (pos + 1)
        | .bang =>
          if ty ≠ ElementTypes.Standard then .err .BadTokenPosBang
          else read_loop slice fuel .Global (pos + 1)
        | .hash =>
          if ty = ElementTypes.Standard then .comment (substring slice (pos + 1) slice.length)
          else .hang
        | _ => .proceed ty pos

/-- Step 3 of `ElementParser::read`: the end of the element name, the index
of the first space byte of the trimmed slice (searched from index 0), or
the length if there is none. -/
def name_end (slice : List Char) : Nat :=
  match position slice ' ' with
  | none => slice.length
  | some idx => min slice.length idx

/-- The space skip at the head of `ElementParser::parse_tokens`. -/
def skip_spaces (slice : List Char) (start : Nat) : Nat :=
  start + ((slice.drop start).takeWhile (fun c => c == ' ')).length

/-- `ElementParser::read` of `src/element_parser.rs`.  `none` models the
source diverging (the `#`-with-tag infinite loop).  Notes kept from the
source:
* the `String::from_utf8` fallback that reports `EolMissing*` errors is
  unreachable, because the bytes come from a valid `&str`; it is omitted
  (no empty-name check remains on the live path);
* in `str.substring(pos, end - pos)` the `usize` subtraction wraps in a
  release build when `pos > end`, and `take` of the wrapped count keeps the
  whole remainder, modelled by taking `len` characters (a debug build
  panics at that subtraction). -/
def ElementParser.read (line_number : Nat) (line : List Char) (literals : List Literal) :
    Option ElementParser :=
  let slice := std_trim line
  let len := slice.length
  if len = 0 then some ⟨.Unset, none, some .EolNoData, line_number⟩
  else
    match read_loop slice (len + 1) .Standard 0 with
    | .hang => none
    | .err e => some ⟨.Unset, none, some e, line_number⟩
    | .comment text => some ⟨.Unset, some (Elements.new_comment text), none, line_number⟩
    | .proceed ty pos =>
      let e := name_end slice
      let nlen := if e < pos then len else e - pos
      let name := unquote (substring slice pos nlen)
      let el0 : Elements :=
        match ty with
        | .Attribute => Elements.new_attribute name
        | .Global => Elements.new_global name
        | .Standard => Elements.new_standard name
      let start := skip_spaces slice e
      if start ≥ len then some ⟨.Unset, some el0, none, line_number⟩
      else
        let out := collect_tokens slice start literals
        some ⟨out.delimiter, some (evaluate_keyvals el0 out.tokens), none, line_number⟩

/-! ## Document driver (src/lib.rs) -/

/-- `ParseResult` of `src/lib.rs`. -/
inductive ParseResult
  | Ok (line_number : Nat) (data : Elements)
  | Err (line_number : Nat) (message : String) (code : ErrorCodes)
deriving DecidableEq, Repr

/-- `ParseResult::error` of `src/lib.rs`. -/
def ParseResult.error (line_number : Nat) (code : ErrorCodes) : ParseResult :=
  .Err line_number code.values code

/-- The line number of a `ParseResult` (both variants carry one). -/
def ParseResult.line_number : ParseResult → Nat
  | .Ok n _ => n
  | .Err n _ _ => n

/-- Whether a `ParseResult` is an `Ok` wrapping a `Global` (the flag the
`organize` comparator computes for each side). -/
def ParseResult.is_global_ok : ParseResult → Bool
  | .Ok _ (.Global _) => true
  | _ => false

/-- The comparator closure of `YesDocParser::organize`: a Global `Ok` ranks
before anything else; two entries of the same group compare by line
number. -/
def organize_cmp (a b : ParseResult) : Ordering :=
  match a.is_global_ok, b.is_global_ok with
  | true, false => .lt
  | false, true => .gt
  | _, _ => compare a.line_number b.line_number

/-- Stable insertion into a sorted list: the new element goes after every
element that compares strictly below it and before the first element that
does not, so elements that compare equal keep their original order. -/
def insert_by (cmp : ParseResult → ParseResult → Ordering) (x : ParseResult) :
    List ParseResult → List ParseResult
  | [] => [x]
  | y :: ys => if cmp x y = .gt then y :: insert_by cmp x ys else x :: y :: ys

/-- Stable insertion sort.  Rust's `sort_by` is a stable sort and
`organize_cmp` is the total preorder induced by the key
`(not is_global_ok, line_number)`; a stable sort under a total preorder is
unique, so insertion sort is an extensionally faithful model. -/
def sort_by (cmp : ParseResult → ParseResult → Ordering) :
    List ParseResult → List ParseResult
  | [] => []
  | x :: xs => insert_by cmp x (sort_by cmp xs)

/-- `YesDocParser::organize` of `src/lib.rs`. -/
def organize (results : List ParseResult) : List ParseResult :=
  sort_by organize_cmp results

/-- The mutable state of `YesDocParser` (src/lib.rs). -/
structure YesDocParserState where
  total_lines : Nat
  building_line : Option (List Char)
  attrs : List Element
  results : List ParseResult
deriving DecidableEq, Repr

def YesDocParserState.init : YesDocParserState :=
  ⟨0, none, [], []⟩

/-- `YesDocParser::process` of `src/lib.rs`.  `none` models a panic or a
hang:
* when the element lexer reports an error, the source pushes the `Err`
  result but does not return; it falls through to
  `element_parser.element.expect(..)`, and every error-reporting path of
  `ElementParser::read` leaves `element` as `None`, so the `expect`
  panics — the push is therefore unobservable and the whole parse aborts;
* `line.replace(backslash, "")` removes every backslash in the line, not
  only the trailing one. -/
def process (st : YesDocParserState) (line : List Char) (literals : List Literal) :
    Option YesDocParserState :=
  let total := st.total_lines + 1
  if line.getLast? == some '\\' then
    let stripped := line.filter (fun c => c ≠ '\\')
    let building :=
      match st.building_line with
      | some s => s ++ stripped
      | none => stripped
    some { st with total_lines := total, building_line := some building }
  else
    let line2 :=
      match st.building_line with
      | some s => s ++ line
      | none => line
    match ElementParser.read total line2 literals with
    | none => none
    | some ep =>
      if ep.error.isSome then none
      else
        match ep.element with
        | some (.Attribute data) =>
          some { st with total_lines := total, building_line := none
                         attrs := st.attrs ++ [Elements.copy data] }
        | some (.Standard attrs0 el) =>
          some { st with total_lines := total, building_line := none, attrs := []
                         results := st.results ++
                           [.Ok total (.Standard (attrs0 ++ st.attrs.map Elements.copy) el)] }
        | some other =>
          some { st with total_lines := total, building_line := none
                         results := st.results ++ [.Ok total other] }
        | none => none

/-- Folding `process` over the input lines. -/
def process_lines (st : YesDocParserState) (literals : List Literal) :
    List (List Char) → Option YesDocParserState
  | [] => some st
  | line :: rest =>
    match process st line literals with
    | none => none
    | some st2 => process_lines st2 literals rest

/-- Rust `str::split('\n')`: the empty string yields one empty piece. -/
def split_lines : List Char → List (List Char)
  | [] => [[]]
  | c :: rest =>
    if c = '\n' then [] :: split_lines rest
    else
      match split_lines rest with
      | [] => [[c]]
      | l :: ls => (c :: l) :: ls

/-- `YesDocParser::from_string` of `src/lib.rs`: prepend the built-in quote
literal, process every line, then `organize`.  `none` models the process
panic described above. -/
def YesDocParser.from_string (body : List Char) (literals : Option (List Literal)) :
    Option (List ParseResult) :=
  let lits := Literal.build_quotes :: literals.getD []
  match process_lines YesDocParserState.init lits (split_lines body) with
  | none => none
  | some st => some (organize st.results)

/-! ## Claim-side definitions

These definitions follow the wording of the specification, for comparison
with the source-derived definitions above. -/

/-- From the spec's wording for claim C6: "The grammar reserves the bytes
`@`, `!`, `#`, `=`, `,`, `"`, `\`, and space" — the correct set per the
source excludes the last two; this is the six-byte set the code tests. -/
def claim_reserved (c : Char) : Bool :=
  c == '@' || c == '!' || c == '#' || c == '=' || c == ',' || c == '"'

/-- First literal of the registry whose `begin` byte is `c`. -/
def lit_first (lits : List Literal) (c : Char) : Option Literal :=
  match lits with
  | [] => none
  | l :: rest => if l.begin == c then some l else lit_first rest c

/-- Modelled from the spec's wording for claim C7 (pass 1, delimiter
inference): walk the post-name bytes; a `begin` byte of a registered
literal opens a span that is opaque up to the matching `end` byte (or to
end-of-line if it never occurs); a `,` outside every span selects the comma
delimiter; otherwise the scan reaches end-of-line with the counters the
spec describes.  Returns the counters and whether an outside comma was
seen. -/
def claim_scan (slice : List Char) (lits : List Literal) :
    Nat → Pass1Acc → Nat → Pass1Acc × Bool
  | 0, acc, _ => (acc, false)
  | fuel + 1, acc, curr =>
    match slice[curr]? with
    | none => (acc, false)
    | some c =>
      let acc2 := pass1_upd acc c curr
      match lit_first lits c with
      | some l =>
        match position (slice.drop (curr + 1)) l.end_ with
        | some p => claim_scan slice lits fuel acc2 (curr + 1 + p + 1)
        | none => (acc2, false)
      | none =>
        if c == ',' then (acc2, true)
        else claim_scan slice lits fuel acc2 (curr + 1)

/-- Modelled from the spec's wording for claim C7: comma is chosen exactly
when an outside comma was seen or when end-of-line is reached in the
single-keyval shape (`one_token_exists`); otherwise space. -/
def claim_delimiter (slice : List Char) (start : Nat) (lits : List Literal) : Delimiters :=
  let r := claim_scan slice lits (slice.length + 1) Pass1Acc.init start
  if r.2 then .Comma
  else if one_token_exists r.1 then .Comma
  else .Space

/-- The per-logical-line outcome of the lexer: line assembly exactly as in
`YesDocParser::process`, with the `(line number, element)` pair of every
successfully parsed logical line listed in source order (`none` when a line
errors — which the driver turns into a panic — or the lexer diverges). -/
def logical_elems (lits : List Literal) :
    Nat → Option (List Char) → List (List Char) → Option (List (Nat × Elements))
  | _, _, [] => some []
  | total, building, line :: rest =>
    let total2 := total + 1
    if line.getLast? == some '\\' then
      let stripped := line.filter (fun c => c ≠ '\\')
      let building2 :=
        match building with
        | some s => s ++ stripped
        | none => stripped
      logical_elems lits total2 (some building2) rest
    else
      let line2 :=
        match building with
        | some s => s ++ line
        | none => line
      match ElementParser.read total2 line2 lits with
      | none => none
      | some ep =>
        if ep.error.isSome then none
        else
          match ep.element with
          | some el => (logical_elems lits total2 none rest).map (fun l => (total2, el) :: l)
          | none => none

/-- Modelled from the spec's wording for claim C9: an Attribute element is
queued (as a copy) and never emitted; a Standard element is emitted carrying
exactly the attributes queued since the previous emitted Standard (or the
start of input), in source order, and the queue is cleared; other elements
are emitted as-is; attributes still queued at end of input are discarded
silently. -/
def attach_attrs (pending : List Element) : List (Nat × Elements) → List ParseResult
  | [] => []
  | (n, e) :: rest =>
    match e with
    | .Attribute a => attach_attrs (pending ++ [Elements.copy a]) rest
    | .Standard ats el =>
      .Ok n (.Standard (ats ++ pending.map Elements.copy) el) :: attach_attrs [] rest
    | .Global g => .Ok n (.Global g) :: attach_attrs pending rest
    | .Comment g => .Ok n (.Comment g) :: attach_attrs pending rest

/-- Whether a `ParseResult` is a top-level `Attribute` entry (claim C9
asserts there are none). -/
def is_attribute_result : ParseResult → Bool
  | .Ok _ (.Attribute _) => true
  | _ => false

/-- First-some choice on optional literals (the shape of a lookup split
across an association-list append). -/
def opt_or (x y : Option Literal) : Option Literal :=
  match x with
  | some a => some a
  | none => y

/-! ## Helper lemmas -/

/-- Dropping a prefix cannot eat into a trailing two-element block whose
first element fails the predicate. -/
theorem dropWhile_append_last_two (p : Char → Bool) (X : List Char) (b a : Char)
    (hb : p b = false) :
    ∃ Y, List.dropWhile p (X ++ b :: a :: []) = Y ++ b :: a :: [] := by
  induction X with
  | nil =>
    refine ⟨[], ?_⟩
    simp [List.dropWhile_cons, hb]
  | cons x xs ih =>
    obtain ⟨Y, hY⟩ := ih
    by_cases hx : p x = true
    · exact ⟨Y, by simp [List.dropWhile_cons, hx, hY]⟩
    · refine ⟨x :: xs, ?_⟩
      simp only [List.cons_append, List.dropWhile_cons, hx]
      simp at hx
      simp [hx]

/-- `str::trim` keeps the first two characters of a line when neither is
whitespace. -/
theorem std_trim_cons_cons (a b : Char) (l : List Char)
    (ha : a.isWhitespace = false) (hb : b.isWhitespace = false) :
    ∃ t, std_trim (a :: b :: l) = a :: b :: t := by
  unfold std_trim
  have hdw : List.dropWhile Char.isWhitespace (a :: b :: l) = a :: b :: l := by
    rw [List.dropWhile_cons]
    simp [ha]
  rw [hdw]
  have hrev : (a :: b :: l).reverse = l.reverse ++ b :: a :: [] := by
    simp
  rw [hrev]
  obtain ⟨Y, hY⟩ := dropWhile_append_last_two Char.isWhitespace l.reverse b a hb
  rw [hY]
  exact ⟨Y.reverse, by simp⟩

/-- `Glyphs::is_reserved` recognises exactly the six bytes
`@ ! # = , "` — in particular neither the backslash nor the space byte. -/
theorem is_reserved_eq_claim (c : Char) : Glyphs.is_reserved c = claim_reserved c := by
  unfold Glyphs.is_reserved Glyphs.fromChar claim_reserved
  split_ifs with h1 h2 h3 h4 h5 h6 h7 h8 <;> simp_all

theorem compare_ne_gt_of_le (a b : Nat) (h : a ≤ b) : compare a b ≠ .gt := by
  intro hc
  rw [Nat.compare_eq_gt] at hc
  omega

/-- A Global `Ok` never ranks after an entry with a line number at least
its own. -/
theorem organize_cmp_not_gt_of_global (x y : ParseResult) (hx : x.is_global_ok = true)
    (hle : x.line_number ≤ y.line_number) : organize_cmp x y ≠ .gt := by
  unfold organize_cmp
  rw [hx]
  cases hy : y.is_global_ok
  · simp
  · exact compare_ne_gt_of_le _ _ hle

/-- A non-Global entry always ranks after a Global `Ok`. -/
theorem organize_cmp_gt_nonglobal_global (x y : ParseResult)
    (hx : x.is_global_ok = false) (hy : y.is_global_ok = true) :
    organize_cmp x y = .gt := by
  unfold organize_cmp
  rw [hx, hy]

/-- Two non-Global entries compare by line number. -/
theorem organize_cmp_not_gt_nonglobal (x y : ParseResult)
    (hx : x.is_global_ok = false) (hy : y.is_global_ok = false)
    (hle : x.line_number ≤ y.line_number) : organize_cmp x y ≠ .gt := by
  unfold organize_cmp
  rw [hx, hy]
  exact compare_ne_gt_of_le _ _ hle

/-- Stable insertion passes over a block it strictly outranks. -/
theorem insert_by_append_of_gt (cmp : ParseResult → ParseResult → Ordering)
    (x : ParseResult) (A B : List ParseResult)
    (hall : ∀ a ∈ A, cmp x a = .gt) :
    insert_by cmp x (A ++ B) = A ++ insert_by cmp x B := by
  induction A with
  | nil => rfl
  | cons a as ih =>
    have ha := hall a (List.mem_cons_self a as)
    simp only [List.cons_append, insert_by, ha, if_true]
    exact congrArg (List.cons a) (ih (fun b hb => hall b (List.mem_cons_of_mem a hb)))

/-- Stable insertion stops immediately when the head does not rank below
the new element. -/
theorem insert_by_front (cmp : ParseResult → ParseResult → Ordering)
    (x : ParseResult) (L : List ParseResult)
    (hhead : ∀ y ∈ L.head?, cmp x y ≠ .gt) :
    insert_by cmp x L = x :: L := by
  cases L with
  | nil => rfl
  | cons y ys =>
    have hy := hhead y rfl
    simp only [insert_by, hy, if_neg]
    simp [hy]

theorem mem_insert_by (cmp : ParseResult → ParseResult → Ordering) (x a : ParseResult)
    (l : List ParseResult) : a ∈ insert_by cmp x l ↔ a = x ∨ a ∈ l := by
  induction l with
  | nil => simp [insert_by]
  | cons y ys ih =>
    unfold insert_by
    by_cases hc : cmp x y = .gt
    · rw [if_pos hc]
      simp only [List.mem_cons, ih]
      tauto
    · rw [if_neg hc]
      simp only [List.mem_cons]

theorem mem_sort_by (cmp : ParseResult → ParseResult → Ordering) (a : ParseResult)
    (l : List ParseResult) : a ∈ sort_by cmp l ↔ a ∈ l := by
  induction l with
  | nil => simp [sort_by]
  | cons y ys ih =>
    unfold sort_by
    rw [mem_insert_by, ih]
    simp

/-- `attach_attrs` never emits a top-level Attribute entry. -/
theorem attach_attrs_no_attribute (elems : List (Nat × Elements)) :
    ∀ (p : List Element) (r : ParseResult), r ∈ attach_attrs p elems →
      is_attribute_result r = false := by
  induction elems with
  | nil => intro p r hr; simp [attach_attrs] at hr
  | cons x rest ih =>
    intro p r hr
    obtain ⟨n, e⟩ := x
    cases e with
    | Attribute a => exact ih _ r hr
    | Standard ats el =>
      rcases List.mem_cons.mp hr with rfl | h2
      · rfl
      · exact ih _ r h2
    | Global g =>
      rcases List.mem_cons.mp hr with rfl | h2
      · rfl
      · exact ih _ r h2
    | Comment g =>
      rcases List.mem_cons.mp hr with rfl | h2
      · rfl
      · exact ih _ r h2

/-- Refinement of the driver loop: whenever `process` folded over the input
lines completes, the results pushed are exactly `attach_attrs` applied to
the per-logical-line elements, starting from the driver's pending attribute
queue. -/
theorem process_lines_attach (lits : List Literal) (lines : List (List Char)) :
    ∀ (st st2 : YesDocParserState), process_lines st lits lines = some st2 →
      ∃ elems, logical_elems lits st.total_lines st.building_line lines = some elems
        ∧ st2.results = st.results ++ attach_attrs st.attrs elems := by
  induction lines with
  | nil =>
    intro st st2 h
    refine ⟨[], rfl, ?_⟩
    simp only [process_lines] at h
    cases h
    simp [attach_attrs]
  | cons line rest ih =>
    intro st st2 h
    unfold process_lines at h
    rcases hp : process st line lits with _ | stp
    · rw [hp] at h; cases h
    rw [hp] at h
    unfold process at hp
    by_cases hbs : (line.getLast? == some '\\') = true
    · simp only [hbs, if_true] at hp
      cases hp
      obtain ⟨elems, hlog, hres⟩ := ih _ _ h
      refine ⟨elems, ?_, hres⟩
      unfold logical_elems
      simp only [hbs, if_true]
      exact hlog
    · simp only [hbs, if_false] at hp
      rcases hr : ElementParser.read (st.total_lines + 1)
          (match st.building_line with
           | some s => s ++ line
           | none => line) lits with _ | ep
      · rw [hr] at hp; cases hp
      rw [hr] at hp
      by_cases he : ep.error.isSome = true
      · simp only [he, if_true] at hp; cases hp
      simp only [he, if_false] at hp
      rcases hel : ep.element with _ | el
      · rw [hel] at hp; cases hp
      rw [hel] at hp
      cases el with
      | Attribute a =>
        cases hp
        obtain ⟨elems, hlog, hres⟩ := ih _ _ h
        refine ⟨(st.total_lines + 1, .Attribute a) :: elems, ?_, ?_⟩
        · unfold logical_elems
          simp only at hlog
          simp [hbs, hr, he, hel, hlog]
        · rw [hres]
          rfl
      | Standard ats el =>
        cases hp
        obtain ⟨elems, hlog, hres⟩ := ih _ _ h
        refine ⟨(st.total_lines + 1, .Standard ats el) :: elems, ?_, ?_⟩
        · unfold logical_elems
          simp only at hlog
          simp [hbs, hr, he, hel, hlog]
        · rw [hres]
          simp [attach_attrs, List.append_assoc]
      | Global g =>
        cases hp
        obtain ⟨elems, hlog, hres⟩ := ih _ _ h
        refine ⟨(st.total_lines + 1, .Global g) :: elems, ?_, ?_⟩
        · unfold logical_elems
          simp only at hlog
          simp [hbs, hr, he, hel, hlog]
        · rw [hres]
          simp [attach_attrs, List.append_assoc]
      | Comment g =>
        cases hp
        obtain ⟨elems, hlog, hres⟩ := ih _ _ h
        refine ⟨(st.total_lines + 1, .Comment g) :: elems, ?_, ?_⟩
        · unfold logical_elems
          simp only at hlog
          simp [hbs, hr, he, hel, hlog]
        · rw [hres]
          simp [attach_attrs, List.append_assoc]

/-! ## Pass-1 scanner lemmas (claim C7) -/


/-- `position` finds its target: the returned index holds the byte. -/
theorem position_getElem (t : Char) (L : List Char) :
    ∀ p, position L t = some p → L[p]? = some t := by
  induction L with
  | nil => intro p h; simp [position] at h
  | cons c rest ih =>
    intro p h
    unfold position at h
    by_cases hc : (c == t) = true
    · rw [if_pos hc] at h
      cases h
      simp [beq_iff_eq.mp hc]
    · rw [if_neg hc] at h
      rcases hq : position rest t with _ | q
      · rw [hq] at h; cases h
      · rw [hq] at h
        injection h with h2
        subst h2
        simpa using ih q hq

theorem position_cons_succ_head (t c : Char) (L : List Char) (q : Nat)
    (h : position (c :: L) t = some (q + 1)) : (c == t) = false := by
  unfold position at h
  by_cases hc : (c == t) = true
  · rw [if_pos hc] at h; cases h
  · simpa using hc

theorem hm_insert_none_all_none (l : Literal) (acc : LitMap) :
    (∀ e ∈ acc, e.2 = (none : Option Nat)) →
      ∀ e ∈ hm_insert acc l none, e.2 = (none : Option Nat) := by
  induction acc with
  | nil =>
    intro _ e he
    simp [hm_insert] at he
    rw [he]
  | cons a as ih =>
    intro hacc e he
    unfold hm_insert at he
    by_cases ha : a.1 = l
    · rw [if_pos ha] at he
      rcases List.mem_cons.mp he with rfl | h2
      · rfl
      · exact hacc e (List.mem_cons_of_mem a h2)
    · rw [if_neg ha] at he
      rcases List.mem_cons.mp he with rfl | h2
      · exact hacc a (List.mem_cons_self _ _)
      · exact ih (fun x hx => hacc x (List.mem_cons_of_mem a hx)) e h2

theorem build_map_all_none (lits : List Literal) :
    ∀ e ∈ build_map lits, e.2 = (none : Option Nat) := by
  have gen : ∀ (ls : List Literal) (acc : LitMap),
      (∀ e ∈ acc, e.2 = (none : Option Nat)) →
      ∀ e ∈ ls.foldl (fun m l => hm_insert m l none) acc, e.2 = (none : Option Nat) := by
    intro ls
    induction ls with
    | nil => intro acc hacc e he; exact hacc e he
    | cons l ls2 ih =>
      intro acc hacc e he
      exact ih (hm_insert acc l none) (hm_insert_none_all_none l acc hacc) e he
  exact gen lits [] (by intro e he; cases he)

theorem hm_get_insert_self (m : LitMap) (k : Literal) (v : Option Nat) :
    hm_get (hm_insert m k v) k = some v := by
  induction m with
  | nil => simp [hm_insert, hm_get]
  | cons a as ih =>
    unfold hm_insert
    by_cases ha : a.1 = k
    · rw [if_pos ha]
      simp [hm_get]
    · rw [if_neg ha]
      unfold hm_get
      rw [if_neg ha]
      exact ih

theorem lit_lookup_begin (c : Char) (l : Literal) :
    ∀ m : LitMap, lit_lookup m c = some l → (l.begin == c) = true := by
  intro m
  induction m with
  | nil => intro h; simp [lit_lookup] at h
  | cons a as ih =>
    intro h
    unfold lit_lookup at h
    by_cases ha : (a.1.begin == c) = true
    · rw [if_pos ha] at h
      injection h with h2
      rw [← h2]
      exact ha
    · rw [if_neg ha] at h
      exact ih h

theorem lit_lookup_decomp (c : Char) (l : Literal) :
    ∀ m : LitMap, lit_lookup m c = some l →
      ∃ pre v post, m = pre ++ (l, v) :: post
        ∧ ∀ e ∈ pre, (e.1.begin == c) = false := by
  intro m
  induction m with
  | nil => intro h; simp [lit_lookup] at h
  | cons a as ih =>
    obtain ⟨k, v0⟩ := a
    intro h
    unfold lit_lookup at h
    by_cases ha : (k.begin == c) = true
    · simp only at ha
      rw [if_pos ha] at h
      injection h with h2
      subst h2
      exact ⟨[], v0, as, rfl, by intro e he; cases he⟩
    · simp only at ha
      rw [if_neg ha] at h
      obtain ⟨pre, v, post, hm, hpre⟩ := ih h
      refine ⟨(k, v0) :: pre, v, post, by rw [List.cons_append, hm], ?_⟩
      intro e he
      rcases List.mem_cons.mp he with rfl | h2
      · simpa using ha
      · exact hpre e h2

theorem hm_insert_keys_ne (k : Literal) (u : Option Nat) (post : LitMap) (x : Option Nat) :
    ∀ pre : LitMap, (∀ e ∈ pre, e.1 ≠ k) →
      hm_insert (pre ++ (k, x) :: post) k u = pre ++ (k, u) :: post := by
  intro pre
  induction pre with
  | nil =>
    intro _
    simp [hm_insert]
  | cons a as ih =>
    intro hpre
    have ha : a.1 ≠ k := hpre a (List.mem_cons_self _ _)
    rw [List.cons_append, List.cons_append]
    unfold hm_insert
    rw [if_neg ha]
    rw [ih (fun e he => hpre e (List.mem_cons_of_mem a he))]

theorem hm_insert_restore (m : LitMap) (c : Char) (l : Literal) (v : Option Nat)
    (h : lit_lookup m c = some l) (hall : ∀ e ∈ m, e.2 = (none : Option Nat)) :
    hm_insert (hm_insert m l v) l none = m := by
  obtain ⟨pre, v0, post, hm, hpre⟩ := lit_lookup_decomp c l m h
  have hlb : (l.begin == c) = true := lit_lookup_begin c l m h
  have hkey : ∀ e ∈ pre, e.1 ≠ l := by
    intro e he heq
    have hf := hpre e he
    rw [heq] at hf
    rw [hlb] at hf
    cases hf
  have hv0 : v0 = none := by
    have := hall (l, v0) (by rw [hm]; exact List.mem_append_right _ (List.mem_cons_self _ _))
    simpa using this
  rw [hm, hm_insert_keys_ne l v post v0 pre hkey,
    hm_insert_keys_ne l none post v pre hkey, hv0]



theorem lit_lookup_cons (k : Literal) (v : Option Nat) (rest : LitMap) (c : Char) :
    lit_lookup ((k, v) :: rest) c
      = if (k.begin == c) = true then some k else lit_lookup rest c := rfl

theorem lit_first_cons (l : Literal) (ls : List Literal) (c : Char) :
    lit_first (l :: ls) c
      = if (l.begin == c) = true then some l else lit_first ls c := rfl

theorem opt_or_assoc (a b c : Option Literal) :
    opt_or (opt_or a b) c = opt_or a (opt_or b c) := by
  cases a <;> rfl

theorem lit_lookup_insert_mem (k : Literal) (v : Option Nat) (c : Char) :
    ∀ m : LitMap, (∃ w, (k, w) ∈ m) →
      lit_lookup (hm_insert m k v) c = lit_lookup m c := by
  intro m
  induction m with
  | nil =>
    intro hk
    obtain ⟨w, hw⟩ := hk
    cases hw
  | cons a as ih =>
    obtain ⟨k0, v0⟩ := a
    intro hk
    unfold hm_insert
    by_cases ha : k0 = k
    · rw [if_pos ha]
      rw [lit_lookup_cons, lit_lookup_cons]
      subst ha
      rfl
    · rw [if_neg ha]
      rw [lit_lookup_cons, lit_lookup_cons]
      by_cases hb : (k0.begin == c) = true
      · rw [if_pos hb, if_pos hb]
      · rw [if_neg hb, if_neg hb]
        apply ih
        obtain ⟨w, hw⟩ := hk
        rcases List.mem_cons.mp hw with heq | h2
        · exact absurd (congrArg Prod.fst heq).symm ha
        · exact ⟨w, h2⟩

theorem hm_insert_not_mem (k : Literal) (v : Option Nat) :
    ∀ m : LitMap, (¬ ∃ w, (k, w) ∈ m) →
      hm_insert m k v = m ++ [(k, v)] := by
  intro m
  induction m with
  | nil => intro _; rfl
  | cons a as ih =>
    obtain ⟨k0, v0⟩ := a
    intro hk
    unfold hm_insert
    by_cases ha : k0 = k
    · exfalso
      apply hk
      subst ha
      exact ⟨v0, List.mem_cons_self _ _⟩
    · rw [if_neg ha, List.cons_append]
      rw [ih (fun hw => hk ⟨hw.choose, List.mem_cons_of_mem _ hw.choose_spec⟩)]

theorem lit_lookup_append (c : Char) (m2 : LitMap) :
    ∀ m1 : LitMap, lit_lookup (m1 ++ m2) c
      = opt_or (lit_lookup m1 c) (lit_lookup m2 c) := by
  intro m1
  induction m1 with
  | nil => rfl
  | cons a as ih =>
    obtain ⟨k, v⟩ := a
    rw [List.cons_append, lit_lookup_cons, lit_lookup_cons]
    by_cases hb : (k.begin == c) = true
    · rw [if_pos hb, if_pos hb]
      rfl
    · rw [if_neg hb, if_neg hb]
      exact ih

theorem lit_lookup_isSome_of_mem (c : Char) (l : Literal) (w : Option Nat)
    (hlb : (l.begin == c) = true) :
    ∀ m : LitMap, (l, w) ∈ m → ∃ x, lit_lookup m c = some x := by
  intro m
  induction m with
  | nil => intro h; cases h
  | cons a as ih =>
    obtain ⟨k0, v0⟩ := a
    intro h
    rw [lit_lookup_cons]
    by_cases hb : (k0.begin == c) = true
    · exact ⟨k0, by rw [if_pos hb]⟩
    · rw [if_neg hb]
      rcases List.mem_cons.mp h with heq | h2
      · exfalso
        have hkl : k0 = l := (congrArg Prod.fst heq).symm
        rw [hkl] at hb
        exact hb hlb
      · exact ih h2

theorem lit_lookup_foldl (c : Char) (ls : List Literal) :
    ∀ acc : LitMap,
      lit_lookup (ls.foldl (fun m l => hm_insert m l none) acc) c
        = opt_or (lit_lookup acc c) (lit_first ls c) := by
  induction ls with
  | nil =>
    intro acc
    simp only [List.foldl_nil, lit_first]
    cases lit_lookup acc c <;> rfl
  | cons l ls ih =>
    intro acc
    rw [List.foldl_cons, ih]
    by_cases hk : ∃ w, (l, w) ∈ acc
    · rw [lit_lookup_insert_mem l none c acc hk]
      by_cases hlb : (l.begin == c) = true
      · obtain ⟨w, hw⟩ := hk
        obtain ⟨x, hx⟩ := lit_lookup_isSome_of_mem c l w hlb acc hw
        rw [hx]
        rfl
      · rw [lit_first_cons, if_neg hlb]
    · rw [hm_insert_not_mem l none acc hk, lit_lookup_append, opt_or_assoc]
      congr 1
      rw [lit_lookup_cons, lit_first_cons]
      by_cases hlb : (l.begin == c) = true
      · rw [if_pos hlb, if_pos hlb]
        rfl
      · rw [if_neg hlb, if_neg hlb]
        rfl

theorem lit_lookup_build (lits : List Literal) (c : Char) :
    lit_lookup (build_map lits) c = lit_first lits c := by
  unfold build_map
  rw [lit_lookup_foldl]
  rfl



theorem pass1_eq_claim (slice : List Char) (lits : List Literal) :
    ∀ n curr acc f1 f2,
      slice.length - curr ≤ n →
      slice.length - curr + 1 ≤ f1 →
      slice.length - curr + 1 ≤ f2 →
      ((pass1_loop slice f1 (build_map lits) none acc curr).acc,
        (pass1_loop slice f1 (build_map lits) none acc curr).comma)
        = claim_scan slice lits f2 acc curr := by
  intro n
  induction n with
  | zero =>
    intro curr acc f1 f2 hn hf1 hf2
    obtain ⟨a, rfl⟩ : ∃ a, f1 = a + 1 := ⟨f1 - 1, by omega⟩
    obtain ⟨b, rfl⟩ : ∃ b, f2 = b + 1 := ⟨f2 - 1, by omega⟩
    have hcur : slice[curr]? = none := List.getElem?_eq_none (by omega)
    simp [pass1_loop, claim_scan, hcur]
  | succ n ih =>
    intro curr acc f1 f2 hn hf1 hf2
    obtain ⟨a, rfl⟩ : ∃ a, f1 = a + 1 := ⟨f1 - 1, by omega⟩
    obtain ⟨b, rfl⟩ : ∃ b, f2 = b + 1 := ⟨f2 - 1, by omega⟩
    rcases hcur : slice[curr]? with _ | c
    · simp [pass1_loop, claim_scan, hcur]
    · have hlt : curr < slice.length := by
        by_contra hge
        rw [List.getElem?_eq_none (by omega)] at hcur
        cases hcur
      rcases hlf : lit_first lits c with _ | l
      · have hlk : lit_lookup (build_map lits) c = none := by
          rw [lit_lookup_build, hlf]
        by_cases hc : (c == ',') = true
        · simp [pass1_loop, claim_scan, hcur, hlk, hlf, hc]
        · have hc2 : (c == ',') = false := by simpa using hc
          simp only [pass1_loop, claim_scan, hcur, hlk, hlf, hc2, Bool.false_eq_true,
            if_false]
          exact ih (curr + 1) (pass1_upd acc c curr) a b
            (by omega) (by omega) (by omega)
      · have hlk : lit_lookup (build_map lits) c = some l := by
          rw [lit_lookup_build, hlf]
        have hrest : hm_get (hm_insert (build_map lits) l (some curr)) l
            = some (some curr) := hm_get_insert_self _ _ _
        have hres : hm_insert (hm_insert (build_map lits) l (some curr)) l none
            = build_map lits :=
          hm_insert_restore _ c l _ hlk (build_map_all_none lits)
        rcases hpos : position (slice.drop (curr + 1)) l.end_ with _ | p
        · -- unterminated span: both sides stop with the counters as of curr
          obtain ⟨a1, rfl⟩ : ∃ a1, a = a1 + 1 := ⟨a - 1, by omega⟩
          rcases hcur2 : slice[curr + 1]? with _ | c2
          · simp [pass1_loop, claim_scan, hcur, hlk, hlf, hpos, hcur2]
          · have hlt2 : curr + 1 < slice.length := by
              by_contra hge
              rw [List.getElem?_eq_none (by omega)] at hcur2
              cases hcur2
            have hd : slice.drop (curr + 1) = c2 :: slice.drop (curr + 1 + 1) := by
              have := List.drop_eq_getElem_cons hlt2
              rwa [(List.getElem?_eq_some.mp hcur2).choose_spec] at this
            have hne : (l.end_ == c2) = false := by
              by_contra hb
              have hb2 : (l.end_ == c2) = true := by simpa using hb
              have heq : l.end_ = c2 := beq_iff_eq.mp hb2
              rw [hd] at hpos
              unfold position at hpos
              rw [if_pos (by rw [heq]; exact beq_self_eq_true c2)] at hpos
              cases hpos
            simp [pass1_loop, claim_scan, hcur, hlk, hlf, hpos, hcur2, hne]
        · have hget : slice[curr + 1 + p]? = some l.end_ := by
            have h1 := position_getElem l.end_ (slice.drop (curr + 1)) p hpos
            rwa [List.getElem?_drop] at h1
          have hlt2 : curr + 1 + p < slice.length := by
            by_contra hge
            rw [List.getElem?_eq_none (by omega)] at hget
            cases hget
          cases p with
          | zero =>
            obtain ⟨a1, rfl⟩ : ∃ a1, a = a1 + 1 := ⟨a - 1, by omega⟩
            have hcur2 : slice[curr + 1]? = some l.end_ := by
              simpa using hget
            simp only [pass1_loop, claim_scan, hcur, hlk, hlf, hpos, hcur2,
              beq_self_eq_true, if_true, hrest, hres]
            have := ih (curr + 1 + 1) (pass1_upd acc c curr) a1 b
              (by omega) (by omega) (by omega)
            simpa using this
          | succ q =>
            obtain ⟨a1, rfl⟩ : ∃ a1, a = a1 + 1 := ⟨a - 1, by omega⟩
            obtain ⟨a2, rfl⟩ : ∃ a2, a1 = a2 + 1 := ⟨a1 - 1, by omega⟩
            have hlt1 : curr + 1 < slice.length := by omega
            rcases hcur2 : slice[curr + 1]? with _ | c2
            · rw [List.getElem?_eq_getElem hlt1] at hcur2
              cases hcur2
            · have hd : slice.drop (curr + 1) = c2 :: slice.drop (curr + 1 + 1) := by
                have := List.drop_eq_getElem_cons hlt1
                rwa [(List.getElem?_eq_some.mp hcur2).choose_spec] at this
              have hne : (l.end_ == c2) = false := by
                rw [hd] at hpos
                have h3 := position_cons_succ_head l.end_ c2 _ q hpos
                rw [beq_eq_false_iff_ne] at h3 ⊢
                exact fun hh => h3 hh.symm
              have IH := ih (curr + 1 + (q + 1) + 1) (pass1_upd acc c curr) a2 b
                (by omega) (by omega) (by omega)
              simp only [pass1_loop, claim_scan, hcur, hlk, hlf, hpos, hcur2, hne,
                Bool.false_eq_true, if_false, hget, beq_self_eq_true, if_true,
                hrest, hres]
              simpa using IH


/-! ## Claim theorems -/

/-- Claim C1 (code bug): the claim says an erroneous line only yields an
`Err` entry and parsing of subsequent lines proceeds — the driver has no
other failure mode.  In the source, `YesDocParser::process` pushes the
`Err` but lacks a `return`, falls through to
`element_parser.element.expect(..)` with `element == None`, and panics:
the lexer reports `EolNoData` for the empty line (first conjunct), and the
whole parse of `"a\n\nb"` — and even of the empty document — aborts
(modelled as `none`) instead of producing `Err` plus the two good lines. -/
theorem c1_error_line_aborts_parse :
    ElementParser.read 1 [] [Literal.build_quotes]
        = some ⟨.Unset, none, some .EolNoData, 1⟩
      ∧ YesDocParser.from_string ('a' :: '\n' :: '\n' :: ['b']) none = none
      ∧ YesDocParser.from_string [] none = none := by
  decide

/-- Claim C2 (code bug): the claim says the name start `pos` never exceeds
the name-span end, so `end - pos` cannot underflow.  On the line `"@ a"`
the classification loop leaves `pos = 2` (past the `@` and the following
space) while the name-span end — the index of the first space of the
trimmed line — is `1 < 2`, so the `usize` subtraction `end - pos` in
`str.substring(pos, end - pos)` underflows (debug builds panic; release
builds wrap). -/
theorem c2_name_span_underflow :
    read_loop (std_trim ['@', ' ', 'a']) 4 .Standard 0 = .proceed .Attribute 2
      ∧ name_end (std_trim ['@', ' ', 'a']) < 2 := by
  decide

/-- Claim C3 (code bug): the claim says only the trailing backslash of a
continuation line is stripped and interior backslashes are preserved.  The
source runs `line.replace(backslash, "")`, which removes every backslash:
the physical lines `"a\b\"` and `"c"` assemble to the logical line `"abc"`
(element name `abc`), not `"a\bc"`. -/
theorem c3_backslash_replace_strips_all :
    YesDocParser.from_string ['a', '\\', 'b', '\\', '\n', 'c'] none
      = some [.Ok 2 (.Standard [] { text := ['a', 'b', 'c'], args := [] })] := by
  decide

/-- Claim C4 (counterexample): the claim says `@` followed by `@` or `!`
yields `BadTokenPosAttribute`; on the line `"@!x"` the source reports
`BadTokenPosBang` instead (the `!` arm of the match raises its own code),
and symmetrically `"!@x"` reports `BadTokenPosAttribute` where the claim
requires `BadTokenPosBang`. -/
theorem c4_counterexample :
    (ElementParser.read 1 ['@', '!', 'x'] [Literal.build_quotes]).map
        (fun p => p.error) = some (some .BadTokenPosBang)
      ∧ (ElementParser.read 1 ['!', '@', 'x'] [Literal.build_quotes]).map
        (fun p => p.error) = some (some .BadTokenPosAttribute)
      ∧ ErrorCodes.BadTokenPosBang ≠ ErrorCodes.BadTokenPosAttribute := by
  decide

/-- Claim C4 (amended): when a prefix byte `@` or `!` is followed by a
second prefix byte `@` or `!`, the lexer errors, and the error code is
keyed on the second byte: a second `@` yields `BadTokenPosAttribute` and a
second `!` yields `BadTokenPosBang`, regardless of which prefix byte came
first. -/
theorem c4_error_code_keyed_on_second_byte (p1 p2 : Char) (rest : List Char)
    (lits : List Literal) (n : Nat)
    (h1 : p1 = '@' ∨ p1 = '!') (h2 : p2 = '@' ∨ p2 = '!') :
    ElementParser.read n (p1 :: p2 :: rest) lits =
      some ⟨.Unset, none,
        some (if p2 = '@' then .BadTokenPosAttribute else .BadTokenPosBang), n⟩ := by
  obtain ⟨t, ht⟩ : ∃ t, std_trim (p1 :: p2 :: rest) = p1 :: p2 :: t :=
    std_trim_cons_cons p1 p2 rest
      (by rcases h1 with rfl | rfl <;> decide)
      (by rcases h2 with rfl | rfl <;> decide)
  unfold ElementParser.read
  rw [ht]
  rcases h1 with rfl | rfl <;> rcases h2 with rfl | rfl <;>
    simp [read_loop, Glyphs.is_reserved, Glyphs.fromChar]

/-- Claim C4 (witness): the amended statement evaluated on `"!@x"`. -/
theorem c4_witness :
    ElementParser.read 7 ['!', '@', 'x'] [] =
      some ⟨.Unset, none, some .BadTokenPosAttribute, 7⟩ := by
  have h := c4_error_code_keyed_on_second_byte '!' '@' ['x'] [] 7
    (Or.inr rfl) (Or.inl rfl)
  simpa using h

/-- Claim C5 (code bug): the claim says an empty extracted name yields
`EolMissingAttribute`/`EolMissingGlobal`/`EolMissingElement` and no
element.  The source's only path to those codes guards a
`String::from_utf8` call that cannot fail (the bytes come from a valid
`&str`), so the check is dead: the lines `"@"` and `"!"` produce an `Ok`
`Attribute`/`Global` element whose name is empty, with no error. -/
theorem c5_empty_name_accepted :
    ElementParser.read 1 ['@'] [Literal.build_quotes]
        = some ⟨.Unset, some (.Attribute { text := [], args := [] }), none, 1⟩
      ∧ ElementParser.read 1 ['!'] [Literal.build_quotes]
        = some ⟨.Unset, some (.Global { text := [], args := [] }), none, 1⟩ := by
  decide

/-- Claim C6 (counterexample): the claim says a literal whose begin or end
byte is the backslash or the space byte fails to construct; in the source
`Glyphs::is_reserved` returns `false` for both bytes, so `Literal::new`
succeeds on them. -/
theorem c6_counterexample :
    (Literal.new '\\' '\\').isOk = true ∧ (Literal.new ' ' ' ').isOk = true := by
  decide

/-- Claim C6 (amended): `Literal::new(begin, end)` returns an error if and
only if `begin` or `end` lies in the six-byte reserved set
`@ ! # = , "` — the backslash and the space byte are not reserved. -/
theorem c6_reserved_set (b e : Char) :
    (Literal.new b e).isOk = (!claim_reserved b && !claim_reserved e) := by
  simp only [Literal.new, is_reserved_eq_claim]
  cases claim_reserved b <;> cases claim_reserved e <;> simp [Except.isOk, Except.toBool]

/-- Claim C10 (counterexample): the claim says `unquote(quote(s)) = s` for
every string; for the already-quoted string `""` (two quote characters)
`quote` is a no-op and `unquote` strips the pair, returning the empty
string. -/
theorem c10_counterexample : unquote (quote ['"', '"']) ≠ ['"', '"'] := by
  decide

/-- Claim C10 (amended): `unquote(quote(s)) = s` holds for every `s` that
is not already quoted, and `is_quoted(quote(s))` holds for every `s` (in
particular for every `s` that does not start with a quote).  `is_quoted` on
the one-byte string `"` evaluates totally under the release wrap-around
semantics, returning `false`, so the round trip covers that string too. -/
theorem c10_quote_round_trip (s : List Char) :
    (is_quoted s = false → unquote (quote s) = s) ∧ is_quoted (quote s) = true := by
  cases hq : is_quoted s
  · have hquote : quote s = '"' :: (s ++ ['"']) := by simp [quote, hq]
    have hkey : is_quoted ('"' :: (s ++ ['"'])) = true := by
      unfold is_quoted
      simp only [List.length_cons, List.length_append, List.length_singleton,
        List.length_nil, List.getElem?_cons_zero, List.drop_succ_cons, List.drop_zero]
      have hidx : s.length + (0 + 1) + 1 - 1 - 1 = s.length := by omega
      rw [hidx, List.getElem?_append_right (le_refl s.length)]
      simp
    constructor
    · intro _
      rw [hquote]
      unfold unquote
      rw [hkey]
      simp only [if_true, List.length_cons, List.length_append, List.length_singleton,
        List.length_nil]
      have h2 : s.length + (0 + 1) + 1 - 2 = s.length := by omega
      rw [h2]
      unfold substring
      rw [List.drop_succ_cons, List.drop_zero, List.take_left]
    · rw [hquote, hkey]
  · have hquote : quote s = s := by simp [quote, hq]
    constructor
    · intro h
      exact absurd h (by decide)
    · rw [hquote, hq]

/-- Claim C10 (witness): the amended round trip evaluated on the one-byte
string consisting of a single quote character. -/
theorem c10_witness : is_quoted ['"'] = false ∧ unquote (quote ['"']) = ['"'] :=
  ⟨by decide, (c10_quote_round_trip ['"']).1 (by decide)⟩

/-- Claim C8 (confirmed): `organize` is a stable sort under the comparator
that ranks Global `Ok` entries first and otherwise compares line numbers;
for any result list whose line numbers are nondecreasing in source order
(as the driver produces them), the sorted output is exactly the Global
`Ok` entries followed by all other entries, each group in its original
relative order — in particular `Err` entries (never Global) keep their
relative position among the non-globals. -/
theorem c8_globals_hoisted (l : List ParseResult)
    (h : l.Pairwise (fun a b => a.line_number ≤ b.line_number)) :
    organize l = l.filter ParseResult.is_global_ok
      ++ l.filter (fun r => !r.is_global_ok) := by
  induction l with
  | nil => rfl
  | cons x xs ih =>
    rw [List.pairwise_cons] at h
    obtain ⟨hx, hxs⟩ := h
    have IH2 : sort_by organize_cmp xs
        = xs.filter ParseResult.is_global_ok ++ xs.filter (fun r => !r.is_global_ok) :=
      ih hxs
    show insert_by organize_cmp x (sort_by organize_cmp xs) = _
    rw [IH2, List.filter_cons, List.filter_cons]
    cases hg : x.is_global_ok
    · have hall : ∀ a ∈ xs.filter ParseResult.is_global_ok, organize_cmp x a = .gt := by
        intro a ha
        rw [List.mem_filter] at ha
        exact organize_cmp_gt_nonglobal_global x a hg ha.2
      rw [insert_by_append_of_gt _ _ _ _ hall]
      have hN : insert_by organize_cmp x (xs.filter (fun r => !r.is_global_ok))
          = x :: xs.filter (fun r => !r.is_global_ok) := by
        apply insert_by_front
        intro y hy
        have hy2 : y ∈ xs.filter (fun r => !r.is_global_ok) := List.mem_of_mem_head? hy
        rw [List.mem_filter] at hy2
        have hygl : y.is_global_ok = false := by simpa using hy2.2
        exact organize_cmp_not_gt_nonglobal x y hg hygl (hx y hy2.1)
      rw [hN]
      simp [hg]
    · have key : insert_by organize_cmp x
          (xs.filter ParseResult.is_global_ok ++ xs.filter (fun r => !r.is_global_ok))
          = x :: (xs.filter ParseResult.is_global_ok
              ++ xs.filter (fun r => !r.is_global_ok)) := by
        apply insert_by_front
        intro y hy
        have hy2 := List.mem_of_mem_head? hy
        have hyxs : y ∈ xs := by
          rcases List.mem_append.mp hy2 with h1 | h1
          · exact (List.mem_filter.mp h1).1
          · exact (List.mem_filter.mp h1).1
        exact organize_cmp_not_gt_of_global x y hg (hx y hyxs)
      rw [key]
      simp [hg]

/-- Claim C8 (witness): the sort evaluated on a list holding a Standard, an
`Err`, and a Global in that source order: the Global is hoisted to the
front, the `Err` keeps its place among the non-globals. -/
theorem c8_witness : organize
      [ParseResult.Ok 1 (.Standard [] { text := ['x'], args := [] }),
       ParseResult.Err 2 "Nothing to parse (EOL)." .EolNoData,
       ParseResult.Ok 3 (.Global { text := ['g'], args := [] })]
    = [ParseResult.Ok 3 (.Global { text := ['g'], args := [] }),
       ParseResult.Ok 1 (.Standard [] { text := ['x'], args := [] }),
       ParseResult.Err 2 "Nothing to parse (EOL)." .EolNoData] := by
  have h := c8_globals_hoisted
    [ParseResult.Ok 1 (.Standard [] { text := ['x'], args := [] }),
     ParseResult.Err 2 "Nothing to parse (EOL)." .EolNoData,
     ParseResult.Ok 3 (.Global { text := ['g'], args := [] })]
    (by decide)
  rw [h]
  decide

/-- Claim C9 (confirmed): whenever a parse completes (no line errors — an
erroneous line makes the driver panic, see claim C1), the final result list
is the stable Global hoist of `attach_attrs` applied to the per-logical-line
elements: no Attribute element appears as a top-level entry, and each
emitted Standard carries exactly the attribute elements read since the
previous emitted Standard (or the start of input), in source order, with
attributes still queued at end of input discarded silently. -/
theorem c9_attribute_routing (body : List Char) (literals : Option (List Literal))
    (res : List ParseResult)
    (h : YesDocParser.from_string body literals = some res) :
    ∃ elems,
      logical_elems (Literal.build_quotes :: literals.getD []) 0 none (split_lines body)
          = some elems
        ∧ res = organize (attach_attrs [] elems)
        ∧ ∀ r ∈ res, is_attribute_result r = false := by
  unfold YesDocParser.from_string at h
  rcases hp : process_lines YesDocParserState.init
      (Literal.build_quotes :: literals.getD []) (split_lines body) with _ | st
  · simp [hp] at h
  simp only [hp] at h
  injection h with h2
  obtain ⟨elems, hlog, hres⟩ := process_lines_attach _ _ _ _ hp
  subst h2
  refine ⟨elems, hlog, ?_, ?_⟩
  · rw [hres]
    rfl
  · intro r hr
    rw [hres] at hr
    simp only [YesDocParserState.init, List.nil_append] at hr
    unfold organize at hr
    rw [mem_sort_by] at hr
    exact attach_attrs_no_attribute elems [] r hr

/-- Claim C7 (confirmed): pass 1 of the token scanner resolves the comma
delimiter exactly when a `,` byte occurs outside every literal span, or
when the scan reaches end-of-line (a span left unterminated is opaque to
end-of-line, so the bytes inside it have no effect) in the
single-keyval-with-surrounding-whitespace shape — exactly one `=` outside
literals, exactly one token before it, at most one after it, space-count
asymmetry at most 1, and a space observed; in every other case it resolves
the space delimiter.  `claim_delimiter` is the spec-worded scanner; the
source side is `collect_tokens`.  The hypothesis (no two registered
literals share a `begin` byte) marks the domain on which the
association-list model of the source's `HashMap` — whose key iteration
order Rust leaves unspecified — provably coincides with every iteration
order; the equality itself holds for the model unconditionally. -/
theorem c7_delimiter_choice (slice : List Char) (start : Nat) (lits : List Literal)
    (_hdist : lits.Pairwise (fun a b => a.begin ≠ b.begin)) :
    (collect_tokens slice start lits).delimiter = claim_delimiter slice start lits := by
  have h := pass1_eq_claim slice lits (slice.length - start) start Pass1Acc.init
    (slice.length + 1) (slice.length + 1) (le_refl _) (by omega) (by omega)
  have h1 : (pass1_loop slice (slice.length + 1) (build_map lits) none Pass1Acc.init start).acc
      = (claim_scan slice lits (slice.length + 1) Pass1Acc.init start).1 :=
    congrArg Prod.fst h
  have h2 : (pass1_loop slice (slice.length + 1) (build_map lits) none Pass1Acc.init start).comma
      = (claim_scan slice lits (slice.length + 1) Pass1Acc.init start).2 :=
    congrArg Prod.snd h
  simp only [collect_tokens, claim_delimiter, h1, h2]

/-- Claim C7 (witness): on the post-name range `"a = b"` with only the
quote literal registered, both scanners agree, choosing the comma delimiter
through the single-keyval edge case. -/
theorem c7_witness :
    (collect_tokens "a = b".toList 0 [Literal.build_quotes]).delimiter
        = claim_delimiter "a = b".toList 0 [Literal.build_quotes]
      ∧ claim_delimiter "a = b".toList 0 [Literal.build_quotes] = .Comma :=
  ⟨c7_delimiter_choice "a = b".toList 0 [Literal.build_quotes] (by simp), by decide⟩

/-- Claim C9 (witness): the document `"@a\nx k=v\n!g\n#note"` parses to a
hoisted Global, a Standard carrying the attribute `a`, and a Comment — with
no top-level Attribute entry. -/
theorem c9_witness :
    ∃ elems,
      logical_elems (Literal.build_quotes :: (none : Option (List Literal)).getD []) 0 none
          (split_lines "@a\nx k=v\n!g\n#note".toList) = some elems
        ∧ [ParseResult.Ok 3 (.Global { text := ['g'], args := [] }),
           ParseResult.Ok 2 (.Standard [{ text := ['a'], args := [] }]
             { text := ['x'],
               args := [{ key := some ['k'], val := ['v'], key_contains_space := false,
                          value_contains_space := false }] }),
           ParseResult.Ok 4 (.Comment { text := ['n', 'o', 't', 'e'], args := [] })]
            = organize (attach_attrs [] elems)
        ∧ ∀ r ∈ [ParseResult.Ok 3 (.Global { text := ['g'], args := [] }),
           ParseResult.Ok 2 (.Standard [{ text := ['a'], args := [] }]
             { text := ['x'],
               args := [{ key := some ['k'], val := ['v'], key_contains_space := false,
                          value_contains_space := false }] }),
           ParseResult.Ok 4 (.Comment { text := ['n', 'o', 't', 'e'], args := [] })],
            is_attribute_result r = false :=
  c9_attribute_routing "@a\nx k=v\n!g\n#note".toList none _ (by decide)

end Yes
